import Mathlib

/-!
# Verification of the paperloom category / paper ingestion core

A shallow embedding of the paperloom repository's domain model
(`paperloom/domain/model.py`), application services
(`paperloom/application/services.py`), SQLAlchemy repository
(`paperloom/infrastructure/persistence/repository.py`), unit of work
(`paperloom/application/ports/persistence/unit_of_work.py`) and the
adaptive RSS feed splitter
(`paperloom/infrastructure/paper_extractor.py`), together with theorems
settling the specification's claims about them.

Python sets are modelled as Lean lists carrying the set's iteration
order; set-level deduplication is made explicit where the source relies
on it (`__eq__`/`__hash__` of the domain objects compare only the
identifying key).  Dates are opaque values (no claim inspects their
structure), modelled as `Nat`.
-/

namespace Paperloom

/-- `model.InvalidCategoryError` and friends: the exception types raised by
the embedded core, collapsed into one error type. `keyError` models a raw
Python `KeyError` escaping a dict subscript. -/
inductive DomainError where
  | invalidCategory (categoryString : String)
  | categoriesNotFound (identifiers : List (String × Option String))
  | papersNotFound (arxivIds : List String)
  | noCategories
  | keyError (key : String)
deriving DecidableEq, Repr

/-- `model.CategoryIdentifier`: a two-level taxonomy node key,
`(archive, optional subcategory)`. -/
structure CategoryIdentifier where
  archive : String
  subcategory : Option String := none
deriving DecidableEq, Repr

/-- Python's `str.split(".")`, on the underlying character list: splits at
every `'.'`, keeping empty segments, and yields `[[]]` on the empty
string. -/
def splitDot : List Char → List (List Char)
  | [] => [[]]
  | c :: cs =>
    match splitDot cs with
    | [] => [[]]
    | seg :: rest => if c = '.' then [] :: seg :: rest else (c :: seg) :: rest

/-- `CategoryIdentifier.from_string`: split the string on `"."`; accept one
or two parts (`CategoryIdentifier(*parts)`), otherwise raise
`InvalidCategoryError`. -/
def CategoryIdentifier.fromString (categoryString : String) : Except DomainError CategoryIdentifier :=
  match (splitDot categoryString.toList).map List.asString with
  | [a] => .ok { archive := a }
  | [a, b] => .ok { archive := a, subcategory := some b }
  | _ => .error (.invalidCategory categoryString)

/-- `CategoryIdentifier.__str__`: `f"{archive}.{subcategory}" if
self.subcategory else self.archive` — Python truthiness makes both `None`
and the empty string fall back to the bare archive. -/
def CategoryIdentifier.str (i : CategoryIdentifier) : String :=
  match i.subcategory with
  | some sub => if sub ≠ "" then i.archive ++ "." ++ sub else i.archive
  | none => i.archive

/-- Key of `CategoryIdentifier` as a pair, for error payloads. -/
def CategoryIdentifier.key (i : CategoryIdentifier) : String × Option String :=
  (i.archive, i.subcategory)

/-- Number of `'.'` characters in a string. -/
def dotCount (s : String) : Nat := s.toList.count '.'

theorem splitDot_ne_nil (l : List Char) : splitDot l ≠ [] := by
  cases l with
  | nil => simp [splitDot]
  | cons c cs =>
    simp only [splitDot]
    cases h : splitDot cs with
    | nil => simp
    | cons seg rest =>
      by_cases hc : c = '.' <;> simp [hc]

theorem splitDot_length (l : List Char) : (splitDot l).length = l.count '.' + 1 := by
  induction l with
  | nil => simp [splitDot]
  | cons c cs ih =>
    simp only [splitDot]
    cases h : splitDot cs with
    | nil => exact absurd h (splitDot_ne_nil cs)
    | cons seg rest =>
      by_cases hc : c = '.'
      · simp only [hc, if_pos rfl, List.length_cons, List.count_cons]
        rw [h] at ih
        simp only [List.length_cons] at ih
        simp [ih]
      · simp only [if_neg hc, List.length_cons, List.count_cons]
        rw [h] at ih
        simp only [List.length_cons] at ih
        simp [ih, hc]

theorem splitDot_of_no_dot (l : List Char) (h : '.' ∉ l) : splitDot l = [l] := by
  induction l with
  | nil => simp [splitDot]
  | cons c cs ih =>
    simp only [List.mem_cons, not_or] at h
    have hne : ¬ c = '.' := fun hc => h.1 hc.symm
    simp only [splitDot, ih h.2, if_neg hne]

theorem splitDot_append_dot (a b : List Char) (h : '.' ∉ a) :
    splitDot (a ++ '.' :: b) = a :: splitDot b := by
  induction a with
  | nil =>
    simp only [List.nil_append, splitDot]
    cases hb : splitDot b with
    | nil => exact absurd hb (splitDot_ne_nil b)
    | cons seg rest => simp
  | cons c cs ih =>
    simp only [List.mem_cons, not_or] at h
    have hne : ¬ c = '.' := fun hc => h.1 hc.symm
    rw [List.cons_append]
    simp only [splitDot, ih h.2, if_neg hne]

/-- A well-formed category string: `"archive"` or `"archive.subcategory"`
with non-empty, dot-free segments. -/
def IsValidCategoryString (s : String) : Prop :=
  (s.toList ≠ [] ∧ '.' ∉ s.toList) ∨
    (∃ a b : List Char, a ≠ [] ∧ b ≠ [] ∧ '.' ∉ a ∧ '.' ∉ b ∧ s.toList = a ++ '.' :: b)

theorem asString_append (a b : List Char) :
    (a ++ b).asString = a.asString ++ b.asString := rfl

theorem asString_ne_empty (l : List Char) (h : l ≠ []) : l.asString ≠ "" := by
  intro he
  rw [show ("" : String) = List.asString [] from rfl] at he
  exact h (List.asString_inj.mp he)

/-- C8: for every valid category string `s` (`"archive"` or
`"archive.subcategory"` with non-empty segments), parsing with
`CategoryIdentifier.from_string` and printing with `str()` yields `s`
back exactly. -/
theorem fromString_str_roundtrip (s : String) (h : IsValidCategoryString s) :
    (CategoryIdentifier.fromString s).map CategoryIdentifier.str = .ok s := by
  rcases h with ⟨hne, hnd⟩ | ⟨a, b, ha, hb, hda, hdb, heq⟩
  · have hsplit : splitDot s.toList = [s.toList] := splitDot_of_no_dot _ hnd
    simp only [CategoryIdentifier.fromString, hsplit, List.map_cons, List.map_nil,
      Except.map, CategoryIdentifier.str, String.asString_toList]
  · have hsplit : splitDot s.toList = [a, b] := by
      rw [heq, splitDot_append_dot a b hda, splitDot_of_no_dot b hdb]
    have hbne : b.asString ≠ "" := asString_ne_empty b hb
    simp only [CategoryIdentifier.fromString, hsplit, List.map_cons, List.map_nil,
      Except.map, CategoryIdentifier.str, if_pos hbne]
    rw [show a.asString ++ "." ++ b.asString = (a ++ '.' :: b).asString by
        apply String.toList_inj.mp
        show (a.asString ++ "." ++ b.asString).data = (a ++ '.' :: b).asString.data
        simp only [String.data_append, List.asString, List.append_assoc, List.singleton_append]]
    rw [← heq, String.asString_toList]

/-- Witness for C8 at the concrete valid strings `"cs"` and `"cs.AI"`. -/
theorem fromString_str_roundtrip_witness :
    (CategoryIdentifier.fromString "cs").map CategoryIdentifier.str = .ok "cs" ∧
      (CategoryIdentifier.fromString "cs.AI").map CategoryIdentifier.str = .ok "cs.AI" :=
  ⟨fromString_str_roundtrip "cs" (Or.inl (by decide)),
   fromString_str_roundtrip "cs.AI"
     (Or.inr ⟨['c', 's'], ['A', 'I'], by decide, by decide, by decide, by decide, by decide⟩)⟩

/-- C10: `from_string` raises `InvalidCategoryError` exactly for strings
with two or more `'.'` separators; every string with at most one dot is
accepted, including `""` (archive `""`) and `"archive."` (subcategory
`""`), and on the latter `str()` renders just `"archive"`, so the
round-trip fails there. -/
theorem fromString_invalid_iff_two_dots :
    (∀ s : String, (∃ e, CategoryIdentifier.fromString s = .error e) ↔ 2 ≤ dotCount s) ∧
      CategoryIdentifier.fromString "" = .ok { archive := "" } ∧
      CategoryIdentifier.fromString "archive." =
        .ok { archive := "archive", subcategory := some "" } ∧
      CategoryIdentifier.str { archive := "archive", subcategory := some "" } = "archive" ∧
      ("archive" : String) ≠ "archive." := by
  refine ⟨fun s => ?_, rfl, rfl, rfl, by decide⟩
  have hlen : (splitDot s.data).length = s.data.count '.' + 1 := splitDot_length s.data
  have hdc : dotCount s = s.data.count '.' := rfl
  rw [hdc]
  constructor
  · rintro ⟨e, he⟩
    rcases hsp : splitDot s.data with _ | ⟨x, _ | ⟨y, _ | ⟨z, t⟩⟩⟩
    · exact absurd hsp (splitDot_ne_nil _)
    · simp [CategoryIdentifier.fromString, String.toList, hsp] at he
    · simp [CategoryIdentifier.fromString, String.toList, hsp] at he
    · rw [hsp] at hlen
      simp only [List.length_cons] at hlen
      omega
  · intro h2
    rcases hsp : splitDot s.data with _ | ⟨x, _ | ⟨y, _ | ⟨z, t⟩⟩⟩
    · exact absurd hsp (splitDot_ne_nil _)
    · rw [hsp] at hlen
      simp only [List.length_cons, List.length_nil] at hlen
      omega
    · rw [hsp] at hlen
      simp only [List.length_cons, List.length_nil] at hlen
      omega
    · exact ⟨.invalidCategory s, by simp [CategoryIdentifier.fromString, String.toList, hsp]⟩

/-- `model.Category`: a taxonomy node with metadata and its (derived)
subcategory view. Python `__eq__`/`__hash__` compare only `identifier`;
set operations below therefore compare identifiers. -/
inductive Category where
  | mk (identifier : CategoryIdentifier) (archive_name : Option String)
      (category_name : Option String) (description : Option String)
      (subcategories : List Category)

/-- Field accessor: `Category.identifier`. -/
def Category.identifier : Category → CategoryIdentifier
  | .mk i _ _ _ _ => i

/-- Field accessor: `Category.archive_name`. -/
def Category.archive_name : Category → Option String
  | .mk _ a _ _ _ => a

/-- Field accessor: `Category.category_name`. -/
def Category.category_name : Category → Option String
  | .mk _ _ c _ _ => c

/-- Field accessor: `Category.description`. -/
def Category.description : Category → Option String
  | .mk _ _ _ d _ => d

/-- Field accessor: `Category.subcategories`. -/
def Category.subcategories : Category → List Category
  | .mk _ _ _ _ s => s

/-- Python set `add` for `Category` sets: a no-op when an
identifier-equal element is already present (`Category.__eq__` compares
identifiers only). -/
def pyAddCategory (s : List Category) (c : Category) : List Category :=
  if s.any (fun d => d.identifier = c.identifier) then s else s ++ [c]

/-- Python set union (`|=`) for `Category` sets. -/
def pyUnionCategories (s t : List Category) : List Category :=
  t.foldl pyAddCategory s

/-- `PaperDTO` (ports/paper_extractor.py): transport record with raw
category strings; `__eq__`/`__hash__` compare only `arxiv_id`. -/
structure PaperDTO where
  arxiv_id : String
  title : String
  abstract : String
  published_at : Nat
  categories : List String
deriving DecidableEq, Repr

/-- Python set `add` for `PaperDTO` sets (`PaperDTO.__eq__` compares
`arxiv_id` only). -/
def pyAddPaperDTO (s : List PaperDTO) (p : PaperDTO) : List PaperDTO :=
  if s.any (fun q => q.arxiv_id = p.arxiv_id) then s else s ++ [p]

/-- Python `set.update` for `PaperDTO` sets. -/
def pyUnionPaperDTOs (s t : List PaperDTO) : List PaperDTO :=
  t.foldl pyAddPaperDTO s

/-- `RSSPaperExtractor.RSS_FEED_LIMIT`. -/
def RSS_FEED_LIMIT : Nat := 2000

/-- `RSSPaperExtractor._should_split_categories`: split iff the result hits
the feed limit exactly and the work item has at least two categories, or
exactly one whose identifier has no subcategory. -/
def _should_split_categories (result : List PaperDTO) (categories : List Category) : Bool :=
  result.length == RSS_FEED_LIMIT &&
    (2 ≤ categories.length ||
      (categories.length == 1 &&
        match categories with
        | c :: _ => c.identifier.subcategory.isNone
        | [] => false))

/-- `RSSPaperExtractor._split_categories`: a single category is first
replaced by its `subcategories`; the resulting list is split in half by
index order. (On an empty set Python's `set.pop()` would raise `KeyError`;
that branch is unreachable from the fetch loop, which only splits
non-empty items.) -/
def _split_categories (categories : List Category) : List (List Category) :=
  let categories :=
    if categories.length ≤ 1 then
      match categories with
      | [] => []
      | c :: _ => c.subcategories
    else categories
  [categories.take (categories.length / 2), categories.drop (categories.length / 2)]

/-- `RSSPaperExtractor.fetch_latest`'s work-queue loop, with explicit fuel:
pop a work item from the front, fetch, push both halves at the back when
the split decision fires, and accumulate results by set union. `none`
means the fuel ran out before the queue emptied. -/
def fetchLatestLoop (fetch : List Category → List PaperDTO) :
    Nat → List (List Category) → List PaperDTO → Option (List PaperDTO)
  | _, [], acc => some acc
  | 0, _ :: _, _ => none
  | fuel + 1, categories :: queue, acc =>
    let result := fetch categories
    let queue' :=
      if _should_split_categories result categories then
        queue ++ _split_categories categories
      else queue
    fetchLatestLoop fetch fuel queue' (pyUnionPaperDTOs acc result)

/-- C4: a popped work item is split further iff the fetched result size
equals exactly the source cap (2000) and either the item has two or more
categories, or exactly one archive-level category (no subcategory); a
single subcategory-level category at the cap is accepted as-is, and any
result below the cap never splits. -/
theorem should_split_characterization :
    (∀ (result : List PaperDTO) (categories : List Category),
        _should_split_categories result categories = true ↔
          result.length = RSS_FEED_LIMIT ∧
            (2 ≤ categories.length ∨
              ∃ c, categories = [c] ∧ c.identifier.subcategory = none)) ∧
      (∀ (result : List PaperDTO) (c : Category), c.identifier.subcategory ≠ none →
        _should_split_categories result [c] = false) ∧
      (∀ (result : List PaperDTO) (categories : List Category),
        result.length < RSS_FEED_LIMIT → _should_split_categories result categories = false) := by
  have hmain : ∀ (result : List PaperDTO) (categories : List Category),
      _should_split_categories result categories = true ↔
        result.length = RSS_FEED_LIMIT ∧
          (2 ≤ categories.length ∨
            ∃ c, categories = [c] ∧ c.identifier.subcategory = none) := by
    intro result categories
    unfold _should_split_categories
    cases categories with
    | nil => simp
    | cons c cs =>
      cases cs with
      | nil =>
        by_cases h1 : result.length = RSS_FEED_LIMIT <;>
          by_cases h3 : c.identifier.subcategory = none <;>
            simp [h1, h3]
      | cons d ds =>
        simp only [Bool.and_eq_true, beq_iff_eq, Bool.or_eq_true, decide_eq_true_eq,
          List.length_cons]
        constructor
        · rintro ⟨h1, -⟩
          exact ⟨h1, Or.inl (by omega)⟩
        · rintro ⟨h1, -⟩
          exact ⟨h1, Or.inl (by omega)⟩
  refine ⟨hmain, fun result c hc => ?_, fun result categories hlt => ?_⟩
  · rw [← Bool.not_eq_true]
    intro h
    rcases (hmain result [c]).mp h with ⟨-, h2 | ⟨d, hd, h3⟩⟩
    · simp at h2
    · cases hd
      exact hc h3
  · rw [← Bool.not_eq_true]
    intro h
    exact absurd ((hmain result categories).mp h).1 (Nat.ne_of_lt hlt)

/-- Witness for C4: at the cap with one archive-level category the split
fires; a single subcategory-level category never splits; a result below
the cap never splits. -/
theorem should_split_characterization_witness :
    _should_split_categories
        (List.range RSS_FEED_LIMIT |>.map fun i => ⟨toString i, "", "", 0, []⟩)
        [.mk ⟨"cs", none⟩ none none none []] = true ∧
      _should_split_categories [] [.mk ⟨"cs", some "AI"⟩ none none none []] = false ∧
      _should_split_categories [] [] = false := by
  refine ⟨?_, ?_, ?_⟩
  · exact (should_split_characterization.1 _ _).mpr
      ⟨by simp, Or.inr ⟨_, rfl, rfl⟩⟩
  · exact should_split_characterization.2.1 [] _ (by simp [Category.identifier])
  · exact should_split_characterization.2.2 [] [] (by simp [RSS_FEED_LIMIT])

/-- `services.LEGACY_TO_CANONICAL_CATEGORIES`: the fixed 18-entry
legacy-to-canonical alias table. -/
def LEGACY_TO_CANONICAL_CATEGORIES : List (String × String) :=
  [("chem-ph", "physics.chem-ph"),
   ("alg-geom", "math.AG"),
   ("cmp-lg", "cs.CL"),
   ("acc-phys", "physics.acc-ph"),
   ("adap-org", "nlin.AO"),
   ("chao-dyn", "nlin.CD"),
   ("ao-sci", "physics.ao-ph"),
   ("plasm-ph", "physics.plasm-ph"),
   ("supr-con", "cond-mat.supr-con"),
   ("funct-an", "math.FA"),
   ("dg-ga", "math.DG"),
   ("patt-sol", "nlin.PS"),
   ("q-alg", "math.QA"),
   ("bayes-an", "physics.data-an"),
   ("mtrl-th", "cond-mat.mtrl-sci"),
   ("comp-gas", "nlin.CG"),
   ("solv-int", "nlin.SI"),
   ("atom-ph", "physics.atom-ph")]

/-- `services.CANONICAL_TO_LEGACY_CATEGORIES`: the inverted alias table
(`{v: k for k, v in ...}`; all canonical names are distinct, so the
inversion is lossless). -/
def CANONICAL_TO_LEGACY_CATEGORIES : List (String × String) :=
  LEGACY_TO_CANONICAL_CATEGORIES.map (fun p => (p.2, p.1))

/-- `services._get_legacy_categories`: for every category whose canonical
identifier string has a legacy alias, synthesize a `Category` with the
legacy identifier and the same metadata. Every value of the fixed alias
table is dot-free, so `from_string` never raises here; the embedding
drops the (unreachable) parse-error branch via `toOption`. -/
def _get_legacy_categories (categories : List Category) : List Category :=
  categories.filterMap fun category =>
    (CANONICAL_TO_LEGACY_CATEGORIES.lookup category.identifier.str).bind fun legacy =>
      (CategoryIdentifier.fromString legacy).toOption.map fun ident =>
        Category.mk ident category.archive_name category.category_name
          category.description []

theorem mem_pyAddCategory_left (s : List Category) (c d : Category) (h : d ∈ s) :
    d ∈ pyAddCategory s c := by
  unfold pyAddCategory
  split
  · exact h
  · exact List.mem_append_left _ h

theorem pyAddCategory_mem_ident (s : List Category) (c : Category) :
    ∃ d ∈ pyAddCategory s c, d.identifier = c.identifier := by
  unfold pyAddCategory
  split
  · next hany =>
    rcases List.any_eq_true.mp hany with ⟨d, hd, hid⟩
    exact ⟨d, hd, of_decide_eq_true hid⟩
  · exact ⟨c, List.mem_append_right _ (List.mem_singleton.mpr rfl), rfl⟩

theorem pyUnionCategories_mem_left (s t : List Category) (d : Category) (h : d ∈ s) :
    d ∈ pyUnionCategories s t := by
  induction t generalizing s with
  | nil => exact h
  | cons c cs ih => exact ih (pyAddCategory s c) (mem_pyAddCategory_left s c d h)

theorem pyUnionCategories_mem_ident (s t : List Category) (c : Category) (h : c ∈ t) :
    ∃ d ∈ pyUnionCategories s t, d.identifier = c.identifier := by
  induction t generalizing s with
  | nil => cases h
  | cons x xs ih =>
    rcases List.mem_cons.mp h with rfl | hmem
    · rcases pyAddCategory_mem_ident s c with ⟨d, hd, hid⟩
      exact ⟨d, pyUnionCategories_mem_left _ xs d hd, hid⟩
    · exact ih (pyAddCategory s x) hmem

theorem lookup_mem (l : List (String × String)) (k v : String)
    (h : l.lookup k = some v) : (k, v) ∈ l := by
  induction l with
  | nil => simp [List.lookup] at h
  | cons p es ih =>
    rw [List.lookup] at h
    rcases p with ⟨k', v'⟩
    cases hk : k == k' with
    | true =>
      rw [hk] at h
      cases h
      exact List.mem_cons.mpr (Or.inl (by rw [eq_of_beq hk]))
    | false =>
      rw [hk] at h
      exact List.mem_cons.mpr (Or.inr (ih h))

theorem legacy_table_values_parse :
    ∀ p ∈ CANONICAL_TO_LEGACY_CATEGORIES,
      (CategoryIdentifier.fromString p.2).isOk = true := by decide

/-- C6: the legacy-equivalent expansion — the 18-entry alias table is
fixed; for every resolved category whose canonical identifier string has
a legacy alias, a `Category` with the parsed legacy identifier and the
same metadata is synthesized, lands in the legacy set, and a category
with that legacy identifier is a member of the union
`categories |= _get_legacy_categories(categories)`; conversely every
synthesized category arises this way from an aliased member, so nothing
is synthesized for identifiers without an alias. -/
theorem legacy_expansion_characterization :
    LEGACY_TO_CANONICAL_CATEGORIES.length = 18 ∧
      (∀ (cats : List Category) (c : Category), c ∈ cats →
        ∀ l, CANONICAL_TO_LEGACY_CATEGORIES.lookup c.identifier.str = some l →
          ∃ ident, CategoryIdentifier.fromString l = .ok ident ∧
            Category.mk ident c.archive_name c.category_name c.description [] ∈
              _get_legacy_categories cats ∧
            ∃ d ∈ pyUnionCategories cats (_get_legacy_categories cats),
              d.identifier = ident) ∧
      (∀ (cats : List Category) (c' : Category), c' ∈ _get_legacy_categories cats →
        ∃ c ∈ cats, ∃ l, CANONICAL_TO_LEGACY_CATEGORIES.lookup c.identifier.str = some l ∧
          ∃ ident, CategoryIdentifier.fromString l = .ok ident ∧
            c' = Category.mk ident c.archive_name c.category_name c.description []) := by
  refine ⟨rfl, ?_, ?_⟩
  · intro cats c hc l hl
    have hpar := legacy_table_values_parse _ (lookup_mem _ _ _ hl)
    obtain ⟨ident, hident⟩ : ∃ ident, CategoryIdentifier.fromString l = .ok ident := by
      cases he : CategoryIdentifier.fromString l with
      | ok a => exact ⟨a, rfl⟩
      | error e => rw [he] at hpar; simp [Except.isOk, Except.toBool] at hpar
    refine ⟨ident, hident, ?_, ?_⟩
    · refine List.mem_filterMap.mpr ⟨c, hc, ?_⟩
      simp [hl, hident, Except.toOption]
    · have hmem : Category.mk ident c.archive_name c.category_name c.description [] ∈
          _get_legacy_categories cats := by
        refine List.mem_filterMap.mpr ⟨c, hc, ?_⟩
        simp [hl, hident, Except.toOption]
      exact pyUnionCategories_mem_ident cats _ _ hmem
  · intro cats c' hc'
    obtain ⟨c, hc, hf⟩ := List.mem_filterMap.mp hc'
    refine ⟨c, hc, ?_⟩
    cases hl : CANONICAL_TO_LEGACY_CATEGORIES.lookup c.identifier.str with
    | none => rw [hl] at hf; simp at hf
    | some l =>
      rw [hl] at hf
      simp only [Option.some_bind] at hf
      refine ⟨l, rfl, ?_⟩
      cases he : CategoryIdentifier.fromString l with
      | error e => rw [he] at hf; simp [Except.toOption] at hf
      | ok ident =>
        rw [he] at hf
        simp only [Except.toOption] at hf
        cases hf
        exact ⟨ident, rfl, rfl⟩

/-- Witness for C6: resolving `physics.chem-ph` also yields a synthesized
`chem-ph` category with identical metadata. -/
theorem legacy_expansion_characterization_witness :
    ∃ ident, CategoryIdentifier.fromString "chem-ph" = .ok ident ∧
      Category.mk ident (some "Physics") (some "Chemical Physics") (some "desc") [] ∈
        _get_legacy_categories
          [Category.mk ⟨"physics", some "chem-ph"⟩ (some "Physics")
            (some "Chemical Physics") (some "desc") []] ∧
      ∃ d ∈ pyUnionCategories
          [Category.mk ⟨"physics", some "chem-ph"⟩ (some "Physics")
            (some "Chemical Physics") (some "desc") []]
          (_get_legacy_categories
            [Category.mk ⟨"physics", some "chem-ph"⟩ (some "Physics")
              (some "Chemical Physics") (some "desc") []]),
        d.identifier = ident :=
  legacy_expansion_characterization.2.1
    [Category.mk ⟨"physics", some "chem-ph"⟩ (some "Physics")
      (some "Chemical Physics") (some "desc") []]
    (Category.mk ⟨"physics", some "chem-ph"⟩ (some "Physics")
      (some "Chemical Physics") (some "desc") [])
    (List.mem_singleton.mpr rfl) "chem-ph" (by decide)

mutual
/-- Structural weight of a category: one plus the weight of its
subcategory forest. Drives the termination measure of the fetch loop. -/
def catWeight : Category → Nat
  | .mk _ _ _ _ subs => 1 + catListWeight subs

/-- Total weight of a list of categories. -/
def catListWeight : List Category → Nat
  | [] => 0
  | c :: cs => catWeight c + catListWeight cs
end

/-- Measure of one work item: `2 * weight² + 1`. Splitting a multi-category
item or expanding a single category strictly shrinks the queue's total
measure. -/
def itemMeasure (cats : List Category) : Nat :=
  2 * catListWeight cats * catListWeight cats + 1

/-- Total measure of the work queue. -/
def queueMeasure (q : List (List Category)) : Nat :=
  (q.map itemMeasure).sum

theorem one_le_catWeight (c : Category) : 1 ≤ catWeight c := by
  cases c with
  | mk i a n d subs => simp [catWeight]

theorem catListWeight_append (a b : List Category) :
    catListWeight (a ++ b) = catListWeight a + catListWeight b := by
  induction a with
  | nil => simp [catListWeight]
  | cons c cs ih =>
    rw [List.cons_append]
    simp [catListWeight, ih]
    omega

theorem one_le_catListWeight (l : List Category) (h : l ≠ []) :
    1 ≤ catListWeight l := by
  cases l with
  | nil => exact absurd rfl h
  | cons c cs =>
    have := one_le_catWeight c
    simp [catListWeight]
    omega

theorem catListWeight_take_drop (n : Nat) (l : List Category) :
    catListWeight (l.take n) + catListWeight (l.drop n) = catListWeight l := by
  rw [← catListWeight_append, List.take_append_drop]

theorem shouldSplit_shape (result : List PaperDTO) (cats : List Category)
    (h : _should_split_categories result cats = true) :
    2 ≤ cats.length ∨ ∃ c, cats = [c] := by
  cases cats with
  | nil => simp [_should_split_categories] at h
  | cons c cs =>
    cases cs with
    | nil => exact Or.inr ⟨c, rfl⟩
    | cons d ds =>
      refine Or.inl ?_
      simp only [List.length_cons]
      omega

theorem split_eq_of_two_le (cats : List Category) (h : ¬ cats.length ≤ 1) :
    _split_categories cats =
      [cats.take (cats.length / 2), cats.drop (cats.length / 2)] := by
  unfold _split_categories
  simp [h]

theorem split_eq_of_singleton (c : Category) :
    _split_categories [c] =
      [c.subcategories.take (c.subcategories.length / 2),
       c.subcategories.drop (c.subcategories.length / 2)] := by
  unfold _split_categories
  simp

theorem split_measure_decrease (result : List PaperDTO) (cats : List Category)
    (h : _should_split_categories result cats = true) :
    ((_split_categories cats).map itemMeasure).sum + 1 ≤ itemMeasure cats := by
  rcases shouldSplit_shape result cats h with h2 | ⟨c, rfl⟩
  · have hlen : ¬ cats.length ≤ 1 := by omega
    rw [split_eq_of_two_le cats hlen]
    have hne : cats ≠ [] := by
      intro hnil
      rw [hnil] at h2
      simp at h2
    have htake : cats.take (cats.length / 2) ≠ [] := by
      rw [Ne, List.take_eq_nil_iff]
      push_neg
      exact ⟨by omega, hne⟩
    have hdrop : cats.drop (cats.length / 2) ≠ [] := by
      rw [Ne, List.drop_eq_nil_iff]
      omega
    have h1 := one_le_catListWeight _ htake
    have hd1 := one_le_catListWeight _ hdrop
    have hsum := catListWeight_take_drop (cats.length / 2) cats
    simp only [List.map_cons, List.map_nil, List.sum_cons, List.sum_nil, itemMeasure]
    nlinarith [Nat.mul_le_mul h1 hd1]
  · rw [split_eq_of_singleton c]
    cases c with
    | mk i an cn de subs =>
      simp only [Category.subcategories, List.map_cons, List.map_nil, List.sum_cons,
        List.sum_nil, itemMeasure, catListWeight, catWeight]
      have hsum := catListWeight_take_drop (subs.length / 2) subs
      nlinarith [hsum]

theorem fetchLatestLoop_isSome (fetch : List Category → List PaperDTO) :
    ∀ (fuel : Nat) (q : List (List Category)) (acc : List PaperDTO),
      queueMeasure q ≤ fuel → (fetchLatestLoop fetch fuel q acc).isSome = true := by
  intro fuel
  induction fuel with
  | zero =>
    intro q acc h
    cases q with
    | nil => simp [fetchLatestLoop]
    | cons cats rest =>
      exfalso
      have h1 : 1 ≤ itemMeasure cats := Nat.le_add_left 1 _
      have hq : queueMeasure (cats :: rest) = itemMeasure cats + queueMeasure rest := by
        simp [queueMeasure]
      omega
  | succ f ih =>
    intro q acc h
    cases q with
    | nil => simp [fetchLatestLoop]
    | cons cats rest =>
      have hq : queueMeasure (cats :: rest) = itemMeasure cats + queueMeasure rest := by
        simp [queueMeasure]
      simp only [fetchLatestLoop]
      by_cases hs : _should_split_categories (fetch cats) cats = true
      · simp only [if_pos hs]
        apply ih
        have hd := split_measure_decrease (fetch cats) cats hs
        have happ : queueMeasure (rest ++ _split_categories cats) =
            queueMeasure rest + ((_split_categories cats).map itemMeasure).sum := by
          simp [queueMeasure, List.map_append, List.sum_append]
        omega
      · simp only [if_neg hs]
        apply ih
        have h1 : 1 ≤ itemMeasure cats := Nat.le_add_left 1 _
        omega

/-- C9: for every initial category set whose members' subcategory lists
hold only subcategory-level nodes, the adaptive splitter's work-queue loop
terminates after finitely many iterations regardless of what the fetch
source returns: some finite fuel makes the loop return a result. -/
theorem fetch_latest_terminates (fetch : List Category → List PaperDTO)
    (initial : List Category)
    (hsub : ∀ c ∈ initial, ∀ d ∈ c.subcategories, d.identifier.subcategory ≠ none) :
    ∃ fuel, (fetchLatestLoop fetch fuel [initial] []).isSome = true :=
  ⟨queueMeasure [initial], fetchLatestLoop_isSome fetch _ _ _ le_rfl⟩

/-- Witness for C9: a concrete archive-level category with one subcategory
and a source returning nothing. -/
theorem fetch_latest_terminates_witness :
    ∃ fuel,
      (fetchLatestLoop (fun _ => []) fuel
        [[Category.mk ⟨"cs", none⟩ none none none
            [Category.mk ⟨"cs", some "AI"⟩ none none none []]]] []).isSome = true :=
  fetch_latest_terminates (fun _ => [])
    [Category.mk ⟨"cs", none⟩ none none none
      [Category.mk ⟨"cs", some "AI"⟩ none none none []]]
    (by
      intro c hc d hd
      rw [List.mem_singleton] at hc
      subst hc
      simp only [Category.subcategories, List.mem_singleton] at hd
      subst hd
      simp [Category.identifier])

/-- `orm.CategoryORM` row (integer surrogate id elided; the natural key
`(archive, subcategory)` is unique). -/
structure CategoryRow where
  archive : String
  subcategory : Option String
  archive_name : Option String
  category_name : Option String
  description : Option String
deriving DecidableEq, Repr

/-- `CategoryORM.identifier`, SQL expression form: `CASE WHEN subcategory
IS NOT NULL THEN archive || '.' || subcategory ELSE archive END`. -/
def CategoryRow.identifierSql (r : CategoryRow) : String :=
  match r.subcategory with
  | some sub => r.archive ++ "." ++ sub
  | none => r.archive

/-- `orm.PaperORM` row (integer surrogate id elided; `arxiv_id` is
unique). -/
structure PaperRow where
  arxiv_id : String
  title : String
  abstract : String
  published_at : Nat
deriving DecidableEq, Repr

/-- Relational state: the category table and paper table in insertion
(id) order, and the `paper_category` association rows keyed by the
natural keys `(arxiv_id, category identifier string)`. -/
structure DB where
  categories : List CategoryRow
  papers : List PaperRow
  paperCategories : List (String × String)
deriving DecidableEq, Repr

/-- `model.Paper` domain object; `__eq__`/`__hash__` compare only
`arxiv_id`. -/
structure Paper where
  arxiv_id : String
  title : String
  abstract : String
  published_at : Nat
  categories : List Category

/-- `_to_category` applied to a subcategory-level row: its own derived
`subcategories` view is empty (the self-join requires the row's
subcategory to be NULL). -/
def toCategoryChild (r : CategoryRow) : Category :=
  .mk ⟨r.archive, r.subcategory⟩ r.archive_name r.category_name r.description []

/-- `SqlAlchemyPaperRepository._to_category`: materializes a domain
`Category`, rebuilding the derived subcategory view of an archive-level
row from the live category table. -/
def toCategory (db : DB) (r : CategoryRow) : Category :=
  .mk ⟨r.archive, r.subcategory⟩ r.archive_name r.category_name r.description
    (match r.subcategory with
     | none =>
       (db.categories.filter fun r2 =>
         r2.archive == r.archive && r2.subcategory.isSome).map toCategoryChild
     | some _ => [])

/-- `get_category`: first row whose SQL identifier equals
`str(category_identifier)`. -/
def get_category (db : DB) (ci : CategoryIdentifier) : Option Category :=
  (db.categories.find? fun r => r.identifierSql == ci.str).map (toCategory db)

/-- `list_categories`: every row, in id order. -/
def list_categories (db : DB) : List Category :=
  db.categories.map (toCategory db)

/-- One iteration of `services._resolve_categories`'s loop: parse the
string, look it up, raise `CategoriesNotFoundError({identifier})` on a
miss, otherwise `categories.add(category)`. -/
def _resolve_step (db : DB) (acc : List Category) (s : String) :
    Except DomainError (List Category) := do
  let ci ← CategoryIdentifier.fromString s
  match get_category db ci with
  | none => Except.error (.categoriesNotFound [ci.key])
  | some c => pure (pyAddCategory acc c)

/-- `services._resolve_categories`: with a requested set, resolve each
string in iteration order; with `None`, return `set(list_categories())`
or raise `NoCategoriesError` when the repository holds none. -/
def _resolve_categories (db : DB) (categoryStrings : Option (List String)) :
    Except DomainError (List Category) :=
  match categoryStrings with
  | some strs => strs.foldlM (_resolve_step db) []
  | none =>
    let cats := list_categories db
    if cats.isEmpty then .error .noCategories
    else .ok (pyUnionCategories [] cats)

/-- Counterexample to C1: with only `cs.AI` persisted, requesting
`{"nonexistent.X", "other.Y"}` (both missing) raises
`CategoriesNotFoundError` naming only the first missing identifier
encountered, not every missing one. -/
theorem resolve_not_all_missing_counterexample :
    _resolve_categories ⟨[⟨"cs", some "AI", none, none, none⟩], [], []⟩
        (some ["nonexistent.X", "other.Y"]) =
      .error (.categoriesNotFound [("nonexistent", some "X")]) ∧
      get_category ⟨[⟨"cs", some "AI", none, none, none⟩], [], []⟩
        ⟨"other", some "Y"⟩ = none ∧
      ("other", some "Y") ∉ [(("nonexistent" : String), (some "X" : Option String))] :=
  ⟨rfl, rfl, by decide⟩

/-- C1 (amended): when resolution fails, the raised
`CategoriesNotFoundError` carries exactly the singleton of the first
missing identifier in iteration order (every earlier requested string
parsed and resolved), and no partial category set is returned — the call
produces only the error. -/
theorem resolve_error_is_first_missing (db : DB) (pre : List String) (s : String)
    (rest : List String)
    (hpre : ∀ p ∈ pre, ∃ ci c, CategoryIdentifier.fromString p = .ok ci ∧
      get_category db ci = some c)
    (ci : CategoryIdentifier) (hs : CategoryIdentifier.fromString s = .ok ci)
    (hmiss : get_category db ci = none) :
    _resolve_categories db (some (pre ++ s :: rest)) =
      .error (.categoriesNotFound [ci.key]) := by
  show (pre ++ s :: rest).foldlM (_resolve_step db) [] = _
  suffices h : ∀ acc, (pre ++ s :: rest).foldlM (_resolve_step db) acc =
      .error (.categoriesNotFound [ci.key]) from h []
  induction pre with
  | nil =>
    intro acc
    rw [List.nil_append, List.foldlM_cons]
    have hstep : _resolve_step db acc s = .error (.categoriesNotFound [ci.key]) := by
      unfold _resolve_step
      rw [hs]
      show (match get_category db ci with
        | none => Except.error (DomainError.categoriesNotFound [ci.key])
        | some c => pure (pyAddCategory acc c)) = _
      rw [hmiss]
    rw [hstep]
    rfl
  | cons p ps ih =>
    intro acc
    rw [List.cons_append, List.foldlM_cons]
    obtain ⟨cip, cp, hok, hget⟩ := hpre p (List.mem_cons_self p ps)
    have hstep : _resolve_step db acc p = .ok (pyAddCategory acc cp) := by
      unfold _resolve_step
      rw [hok]
      show (match get_category db cip with
        | none => Except.error (DomainError.categoriesNotFound [cip.key])
        | some c => pure (pyAddCategory acc c)) = _
      rw [hget]
      rfl
    rw [hstep]
    exact ih (fun q hq => hpre q (List.mem_cons_of_mem p hq)) _

/-- Witness for the amended C1 at a concrete repository and request. -/
theorem resolve_error_is_first_missing_witness :
    _resolve_categories ⟨[⟨"cs", some "AI", none, none, none⟩], [], []⟩
        (some (["cs.AI"] ++ "other.Y" :: ["zzz.W"])) =
      .error (.categoriesNotFound [("other", some "Y")]) :=
  resolve_error_is_first_missing ⟨[⟨"cs", some "AI", none, none, none⟩], [], []⟩
    ["cs.AI"] "other.Y" ["zzz.W"]
    (by
      intro p hp
      rw [List.mem_singleton] at hp
      subst hp
      exact ⟨⟨"cs", some "AI"⟩, _, rfl, rfl⟩)
    ⟨"other", some "Y"⟩ rfl rfl

/-- C2, evaluated at the failing input: with a repository holding the
archive-level `cs` and the subcategory-level `cs.AI`, a `None` request
returns *all* categories — including the subcategory-level
`cs.AI` — while `_resolve_categories`'s own docstring (and the spec)
promise only the top-level ones; the `NoCategoriesError`-iff-empty part
does hold. -/
theorem resolve_null_returns_all_rows :
    _resolve_categories
        ⟨[⟨"cs", none, none, none, none⟩, ⟨"cs", some "AI", none, none, none⟩], [], []⟩
        none =
      .ok [Category.mk ⟨"cs", none⟩ none none none
            [Category.mk ⟨"cs", some "AI"⟩ none none none []],
           Category.mk ⟨"cs", some "AI"⟩ none none none []] ∧
      (Category.mk ⟨"cs", some "AI"⟩ none none none []).identifier.subcategory ≠ none ∧
      _resolve_categories ⟨[], [], []⟩ none = .error .noCategories :=
  ⟨rfl, by simp [Category.identifier], rfl⟩

/-- Python `set(iterable)` keyed by a hash key: keeps the first element
seen for each key, in encounter order. -/
def pyDedupBy {α κ : Type} [BEq κ] (key : α → κ) (l : List α) : List α :=
  l.foldl (fun acc x => if acc.any (fun y => key y == key x) then acc else acc ++ [x]) []

/-- The chunking loop of `SqlAlchemyPaperRepository._chunk_set`, with the
list length as structural fuel (each iteration consumes at least one
element, so `l.length` iterations always suffice). -/
def chunkListGo {α : Type} (n : Nat) : Nat → List α → List (List α)
  | _, [] => []
  | 0, _ :: _ => []
  | fuel + 1, x :: xs =>
    match n with
    | 0 => []
    | m + 1 => (x :: xs.take m) :: chunkListGo n fuel (xs.drop m)

/-- `SqlAlchemyPaperRepository._chunk_set`: consecutive chunks of at most
`n` elements (`islice` over the set iterator); with `n = 0` the first
chunk is empty and the loop breaks immediately, yielding nothing. -/
def chunkList {α : Type} (n : Nat) (l : List α) : List (List α) :=
  chunkListGo n l.length l

/-- One row of the `INSERT ... ON CONFLICT (arxiv_id) DO UPDATE` paper
upsert: update the existing row's mutable columns, or append a new
row. -/
def upsertPaperRow (rows : List PaperRow) (p : Paper) : List PaperRow :=
  if rows.any (fun r => r.arxiv_id == p.arxiv_id) then
    rows.map fun r =>
      if r.arxiv_id == p.arxiv_id then
        ⟨r.arxiv_id, p.title, p.abstract, p.published_at⟩
      else r
  else rows ++ [⟨p.arxiv_id, p.title, p.abstract, p.published_at⟩]

/-- The `category_refs` construction of `upsert_papers`: one association
per (paper, category); `category_id_map[str(category.identifier)]` raises
a `KeyError` when a referenced category has no row. -/
def buildRefs (catKeys : List String) : List Paper → Except DomainError (List (String × String))
  | [] => .ok []
  | p :: ps => do
    let prefs ← p.categories.mapM fun c =>
      if catKeys.contains c.identifier.str then
        pure (p.arxiv_id, c.identifier.str)
      else
        Except.error (.keyError c.identifier.str)
    let rest ← buildRefs catKeys ps
    pure (prefs ++ rest)

/-- One chunk of `SqlAlchemyPaperRepository.upsert_papers`: upsert the
paper rows, build the association refs (possibly raising after the rows
were already flushed), and — only when at least one ref exists — delete
every association of the chunk's papers and insert the new refs. -/
def upsertPapersChunk (db : DB) (chunk : List Paper) : Option DomainError × DB :=
  match buildRefs ((db.categories.filter fun r =>
      (chunk.flatMap fun p => p.categories.map fun c => c.identifier.str).contains
        r.identifierSql).map CategoryRow.identifierSql) chunk with
  | .error e => (some e, { db with papers := chunk.foldl upsertPaperRow db.papers })
  | .ok refs =>
    if refs.isEmpty then (none, { db with papers := chunk.foldl upsertPaperRow db.papers })
    else
      (none,
        { db with
          papers := chunk.foldl upsertPaperRow db.papers,
          paperCategories :=
            db.paperCategories.filter
              (fun pc => ¬ (chunk.map Paper.arxiv_id).contains pc.1) ++ refs })

/-- Sequential chunk processing for the paper upsert; an exception in a
chunk stops the loop with earlier chunks' session mutations in place. -/
def upsertPapersChunks : List (List Paper) → DB → Option DomainError × DB
  | [], db => (none, db)
  | c :: cs, db =>
    match upsertPapersChunk db c with
    | (some e, db1) => (some e, db1)
    | (none, db1) => upsertPapersChunks cs db1

/-- `SqlAlchemyPaperRepository.upsert_papers` (parameterized by the
config's `DATABASE_CHUNK_SIZE`); `_chunk_set` materializes each chunk as
a Python set, deduplicating by `arxiv_id`. -/
def upsert_papers (db : DB) (papers : List Paper) (chunkSize : Nat) :
    Option DomainError × DB :=
  upsertPapersChunks ((chunkList chunkSize papers).map (pyDedupBy Paper.arxiv_id)) db

/-- `SqlAlchemyPaperRepository.delete_papers`: compute the missing set
first; raise `PapersNotFoundError` with every missing key before touching
any row, else delete the papers (association rows cascade). -/
def delete_papers (db : DB) (arxivIds : List String) : Option DomainError × DB :=
  if (arxivIds.filter fun i =>
      ¬ ((db.papers.filter fun p => arxivIds.contains p.arxiv_id).map
        PaperRow.arxiv_id).contains i).isEmpty then
    (none,
      { db with
        papers := db.papers.filter fun p => ¬ arxivIds.contains p.arxiv_id,
        paperCategories := db.paperCategories.filter fun pc => ¬ arxivIds.contains pc.1 })
  else
    (some (.papersNotFound (arxivIds.filter fun i =>
      ¬ ((db.papers.filter fun p => arxivIds.contains p.arxiv_id).map
        PaperRow.arxiv_id).contains i)), db)

/-- `SqlAlchemyPaperRepository._delete_categories_chunk`: select the
chunk's existing identifier strings, parse them back, raise
`CategoriesNotFoundError` with the chunk's missing identifiers, else
delete the rows (association rows cascade via `ON DELETE CASCADE`). -/
def _delete_categories_chunk (db : DB) (chunk : List CategoryIdentifier) :
    Option DomainError × DB :=
  if (chunk.filter fun ci =>
      ¬ ((((db.categories.filter fun r =>
          (chunk.map CategoryIdentifier.str).contains r.identifierSql).map
            CategoryRow.identifierSql).filterMap
              fun s => (CategoryIdentifier.fromString s).toOption).contains ci)).isEmpty then
    (none,
      { db with
        categories := db.categories.filter fun r =>
          ¬ (chunk.map CategoryIdentifier.str).contains r.identifierSql,
        paperCategories := db.paperCategories.filter fun pc =>
          ¬ (chunk.map CategoryIdentifier.str).contains pc.2 })
  else
    (some (.categoriesNotFound ((chunk.filter fun ci =>
      ¬ ((((db.categories.filter fun r =>
          (chunk.map CategoryIdentifier.str).contains r.identifierSql).map
            CategoryRow.identifierSql).filterMap
              fun s => (CategoryIdentifier.fromString s).toOption).contains ci)).map
        CategoryIdentifier.key)), db)

/-- Sequential chunk processing for the category delete; a raise in a
later chunk leaves earlier chunks deleted in the session. -/
def deleteCategoriesChunks : List (List CategoryIdentifier) → DB → Option DomainError × DB
  | [], db => (none, db)
  | c :: cs, db =>
    match _delete_categories_chunk db c with
    | (some e, db1) => (some e, db1)
    | (none, db1) => deleteCategoriesChunks cs db1

/-- `SqlAlchemyPaperRepository.delete_categories` (parameterized by the
config's `DATABASE_CHUNK_SIZE`). -/
def delete_categories (db : DB) (ids : List CategoryIdentifier) (chunkSize : Nat) :
    Option DomainError × DB :=
  deleteCategoriesChunks ((chunkList chunkSize ids).map (pyDedupBy id)) db

theorem delete_papers_missing_mem (db : DB) (ids : List String) (i : String) :
    (i ∈ ids.filter fun j =>
        ¬ ((db.papers.filter fun p => ids.contains p.arxiv_id).map
            PaperRow.arxiv_id).contains j) ↔
      i ∈ ids ∧ ∀ r ∈ db.papers, r.arxiv_id ≠ i := by
  rw [List.mem_filter]
  simp only [decide_not, Bool.not_eq_true', decide_eq_false_iff_not, List.contains_iff_exists_mem_beq]
  constructor
  · rintro ⟨hi, hno⟩
    refine ⟨hi, fun r hr hne => hno ?_⟩
    refine ⟨r.arxiv_id, List.mem_map.mpr ⟨r, List.mem_filter.mpr ⟨hr, ?_⟩, rfl⟩, ?_⟩
    · rw [hne]
      simp [hi]
    · rw [hne]
      exact beq_self_eq_true i
  · rintro ⟨hi, hno⟩
    refine ⟨hi, fun hex => ?_⟩
    rcases hex with ⟨a, ha, hbeq⟩
    rcases List.mem_map.mp ha with ⟨r, hr, rfl⟩
    exact hno r (List.mem_filter.mp hr).1 (by
      have := eq_of_beq hbeq
      exact this.symm)

theorem mem_foldl_dedup_of_mem_acc {α κ : Type} [BEq κ] (key : α → κ) :
    ∀ (l : List α) (acc : List α) (x : α), x ∈ acc →
      x ∈ l.foldl (fun acc x =>
        if acc.any (fun y => key y == key x) then acc else acc ++ [x]) acc := by
  intro l
  induction l with
  | nil => intro acc x hx; exact hx
  | cons a as ih =>
    intro acc x hx
    rw [List.foldl_cons]
    apply ih
    split
    · exact hx
    · exact List.mem_append_left _ hx

theorem mem_of_mem_foldl_dedup {α κ : Type} [BEq κ] (key : α → κ) :
    ∀ (l : List α) (acc : List α) (x : α),
      x ∈ l.foldl (fun acc x =>
        if acc.any (fun y => key y == key x) then acc else acc ++ [x]) acc →
      x ∈ acc ∨ x ∈ l := by
  intro l
  induction l with
  | nil => intro acc x hx; exact Or.inl hx
  | cons a as ih =>
    intro acc x hx
    rw [List.foldl_cons] at hx
    rcases ih _ x hx with h | h
    · revert h
      split
      · exact fun h => Or.inl h
      · intro h
        rcases List.mem_append.mp h with h | h
        · exact Or.inl h
        · exact Or.inr (List.mem_cons.mpr (Or.inl (List.mem_singleton.mp h)))
    · exact Or.inr (List.mem_cons_of_mem a h)

theorem exists_key_mem_foldl_dedup {α κ : Type} [BEq κ] [LawfulBEq κ] (key : α → κ) :
    ∀ (l : List α) (acc : List α) (x : α), x ∈ l →
      ∃ y, y ∈ l.foldl (fun acc x =>
        if acc.any (fun y => key y == key x) then acc else acc ++ [x]) acc ∧
        key y = key x := by
  intro l
  induction l with
  | nil => intro acc x hx; cases hx
  | cons a as ih =>
    intro acc x hx
    rw [List.foldl_cons]
    rcases List.mem_cons.mp hx with rfl | hmem
    · by_cases hany : acc.any (fun y => key y == key x) = true
      · rcases List.any_eq_true.mp hany with ⟨y, hy, hkey⟩
        refine ⟨y, ?_, eq_of_beq hkey⟩
        rw [if_pos hany]
        exact mem_foldl_dedup_of_mem_acc key as acc y hy
      · refine ⟨x, ?_, rfl⟩
        rw [if_neg hany]
        exact mem_foldl_dedup_of_mem_acc key as _ x (List.mem_append_right _ (List.mem_singleton.mpr rfl))
    · exact ih _ x hmem

theorem mem_pyDedupBy_id {α : Type} [BEq α] [LawfulBEq α] (l : List α) (x : α) :
    x ∈ pyDedupBy id l ↔ x ∈ l := by
  constructor
  · intro h
    rcases mem_of_mem_foldl_dedup id l [] x h with h | h
    · cases h
    · exact h
  · intro h
    rcases exists_key_mem_foldl_dedup id l [] x h with ⟨y, hy, hkey⟩
    have hyx : y = x := hkey
    exact hyx ▸ hy

theorem chunkList_of_le {α : Type} (n : Nat) (l : List α) (hne : l ≠ [])
    (hlen : l.length ≤ n) : chunkList n l = [l] := by
  cases l with
  | nil => exact absurd rfl hne
  | cons x xs =>
    cases n with
    | zero => simp at hlen
    | succ m =>
      have hxs : xs.length ≤ m := by
        simp only [List.length_cons] at hlen
        omega
      show chunkListGo (m + 1) (xs.length + 1) (x :: xs) = [x :: xs]
      rw [chunkListGo]
      rw [List.take_of_length_le hxs, List.drop_eq_nil_of_le hxs]
      cases hxl : xs.length with
      | zero => rfl
      | succ k => rfl

theorem identifierSql_eq_str (r : CategoryRow) (hns : r.subcategory ≠ some "") :
    r.identifierSql = CategoryIdentifier.str ⟨r.archive, r.subcategory⟩ := by
  cases hsub : r.subcategory with
  | none => simp [CategoryRow.identifierSql, CategoryIdentifier.str, hsub]
  | some sub =>
    have hne : sub ≠ "" := by
      intro h
      rw [h] at hsub
      exact hns hsub
    simp [CategoryRow.identifierSql, CategoryIdentifier.str, hsub, hne]

theorem contains_dedup_map_str (ids : List CategoryIdentifier) (x : String) :
    ((pyDedupBy id ids).map CategoryIdentifier.str).contains x =
      ((ids.map CategoryIdentifier.str).contains x) := by
  rw [Bool.eq_iff_iff]
  constructor
  · intro h
    have hx : x ∈ (pyDedupBy id ids).map CategoryIdentifier.str := by simpa using h
    rcases List.mem_map.mp hx with ⟨ci, hci, rfl⟩
    have hmem : ci ∈ ids := (mem_pyDedupBy_id ids ci).mp hci
    simpa using List.mem_map.mpr ⟨ci, hmem, rfl⟩
  · intro h
    have hx : x ∈ ids.map CategoryIdentifier.str := by simpa using h
    rcases List.mem_map.mp hx with ⟨ci, hci, rfl⟩
    have hmem : ci ∈ pyDedupBy id ids := (mem_pyDedupBy_id ids ci).mpr hci
    simpa using List.mem_map.mpr ⟨ci, hmem, rfl⟩

theorem mem_existingIds_iff (db : DB) (d : List CategoryIdentifier)
    (hwf : ∀ r ∈ db.categories,
      CategoryIdentifier.fromString r.identifierSql = .ok ⟨r.archive, r.subcategory⟩)
    (hns : ∀ r ∈ db.categories, r.subcategory ≠ some "")
    (ci : CategoryIdentifier) (hci : ci ∈ d) :
    ci ∈ (((db.categories.filter fun r =>
        (d.map CategoryIdentifier.str).contains r.identifierSql).map
          CategoryRow.identifierSql).filterMap
            fun s => (CategoryIdentifier.fromString s).toOption) ↔
      ∃ r ∈ db.categories, r.archive = ci.archive ∧ r.subcategory = ci.subcategory := by
  constructor
  · intro h
    rcases List.mem_filterMap.mp h with ⟨s, hs, hparse⟩
    rcases List.mem_map.mp hs with ⟨r, hrfil, rfl⟩
    have hr : r ∈ db.categories := (List.mem_filter.mp hrfil).1
    rw [hwf r hr] at hparse
    simp only [Except.toOption, Option.some.injEq] at hparse
    refine ⟨r, hr, ?_, ?_⟩
    · rw [← hparse]
    · rw [← hparse]
  · rintro ⟨r, hr, ha, hsub⟩
    have hstr : r.identifierSql = CategoryIdentifier.str ci := by
      rw [identifierSql_eq_str r (hns r hr), ha, hsub]
    refine List.mem_filterMap.mpr ⟨r.identifierSql, ?_, ?_⟩
    · refine List.mem_map.mpr ⟨r, List.mem_filter.mpr ⟨hr, ?_⟩, rfl⟩
      rw [hstr]
      simpa using List.mem_map.mpr ⟨ci, hci, rfl⟩
    · rw [hwf r hr]
      simp only [Except.toOption, Option.some.injEq]
      cases ci
      simp only [CategoryIdentifier.mk.injEq] at ha hsub ⊢
      exact ⟨ha, hsub⟩

theorem deleteCategoriesChunks_singleton (db : DB) (c : List CategoryIdentifier) :
    deleteCategoriesChunks [c] db = _delete_categories_chunk db c := by
  rw [deleteCategoriesChunks]
  rcases h : _delete_categories_chunk db c with ⟨oe, db1⟩
  cases oe <;> rfl

/-- C7 (amended): `delete_papers` (unchunked) either deletes every
requested paper or raises `PapersNotFoundError` enumerating every missing
key of the request with the repository unchanged. `delete_categories`
processes the request in chunks of `DATABASE_CHUNK_SIZE`; only when the
request fits in one chunk (as with the default size 5000 and at most 5000
keys, over a well-formed category table) is it all-or-nothing with the
complete missing set — across chunk boundaries earlier chunks are already
deleted when a later chunk raises. -/
theorem delete_operations_atomicity :
    (∀ (db : DB) (ids : List String),
      ((∀ i ∈ ids, ∃ r ∈ db.papers, r.arxiv_id = i) →
        delete_papers db ids =
          (none,
            ⟨db.categories,
             db.papers.filter fun p => ¬ ids.contains p.arxiv_id,
             db.paperCategories.filter fun pc => ¬ ids.contains pc.1⟩)) ∧
      ((∃ i ∈ ids, ∀ r ∈ db.papers, r.arxiv_id ≠ i) →
        ∃ missing : List String,
          delete_papers db ids = (some (.papersNotFound missing), db) ∧
          ∀ i, i ∈ missing ↔ i ∈ ids ∧ ∀ r ∈ db.papers, r.arxiv_id ≠ i)) ∧
    (∀ (db : DB) (ids : List CategoryIdentifier) (chunkSize : Nat),
      ids ≠ [] → ids.length ≤ chunkSize →
      (∀ r ∈ db.categories,
        CategoryIdentifier.fromString r.identifierSql = .ok ⟨r.archive, r.subcategory⟩) →
      (∀ r ∈ db.categories, r.subcategory ≠ some "") →
      ((∀ ci ∈ ids, ∃ r ∈ db.categories,
          r.archive = ci.archive ∧ r.subcategory = ci.subcategory) →
        delete_categories db ids chunkSize =
          (none,
            ⟨db.categories.filter fun r =>
               ¬ (ids.map CategoryIdentifier.str).contains r.identifierSql,
             db.papers,
             db.paperCategories.filter fun pc =>
               ¬ (ids.map CategoryIdentifier.str).contains pc.2⟩)) ∧
      ((∃ ci ∈ ids, ∀ r ∈ db.categories,
          ¬ (r.archive = ci.archive ∧ r.subcategory = ci.subcategory)) →
        ∃ missing : List CategoryIdentifier,
          delete_categories db ids chunkSize =
            (some (.categoriesNotFound (missing.map CategoryIdentifier.key)), db) ∧
          ∀ ci, ci ∈ missing ↔
            ci ∈ ids ∧ ∀ r ∈ db.categories,
              ¬ (r.archive = ci.archive ∧ r.subcategory = ci.subcategory))) := by
  refine ⟨fun db ids => ⟨?_, ?_⟩, fun db ids chunkSize hnil hlen hwf hns => ?_⟩
  · intro h
    unfold delete_papers
    split
    · rfl
    · next hcond =>
      exfalso
      apply hcond
      rw [List.isEmpty_iff, List.eq_nil_iff_forall_not_mem]
      intro i hi
      rcases (delete_papers_missing_mem db ids i).mp hi with ⟨hin, hno⟩
      rcases h i hin with ⟨r, hr, heq⟩
      exact hno r hr heq
  · intro h
    have hne : (ids.filter fun j =>
        ¬ ((db.papers.filter fun p => ids.contains p.arxiv_id).map
            PaperRow.arxiv_id).contains j) ≠ [] := by
      rcases h with ⟨i, hi, hno⟩
      intro hnil
      have hmem := (delete_papers_missing_mem db ids i).mpr ⟨hi, hno⟩
      rw [hnil] at hmem
      cases hmem
    refine ⟨_, ?_, fun i => delete_papers_missing_mem db ids i⟩
    unfold delete_papers
    split
    · next hcond =>
      exfalso
      rw [List.isEmpty_iff] at hcond
      exact hne hcond
    · rfl
  · have hchunk : delete_categories db ids chunkSize =
        _delete_categories_chunk db (pyDedupBy id ids) := by
      unfold delete_categories
      rw [chunkList_of_le chunkSize ids hnil hlen]
      rw [show ([ids].map (pyDedupBy id)) = [pyDedupBy id ids] from rfl]
      exact deleteCategoriesChunks_singleton db _
    have hmiss_mem : ∀ ci,
        (ci ∈ (pyDedupBy id ids).filter fun ci =>
          ¬ ((((db.categories.filter fun r =>
              ((pyDedupBy id ids).map CategoryIdentifier.str).contains r.identifierSql).map
                CategoryRow.identifierSql).filterMap
                  fun s => (CategoryIdentifier.fromString s).toOption).contains ci)) ↔
          ci ∈ ids ∧ ∀ r ∈ db.categories,
            ¬ (r.archive = ci.archive ∧ r.subcategory = ci.subcategory) := by
      intro ci
      rw [List.mem_filter]
      constructor
      · rintro ⟨hd, hcond⟩
        have hid : ci ∈ ids := (mem_pyDedupBy_id ids ci).mp hd
        refine ⟨hid, fun r hr hmatch => ?_⟩
        have hex : ci ∈ (((db.categories.filter fun r =>
            ((pyDedupBy id ids).map CategoryIdentifier.str).contains r.identifierSql).map
              CategoryRow.identifierSql).filterMap
                fun s => (CategoryIdentifier.fromString s).toOption) :=
          (mem_existingIds_iff db (pyDedupBy id ids) hwf hns ci hd).mpr
            ⟨r, hr, hmatch.1, hmatch.2⟩
        simp only [decide_not, Bool.not_eq_true', decide_eq_false_iff_not] at hcond
        exact hcond (by simpa using hex)
      · rintro ⟨hid, hno⟩
        have hd : ci ∈ pyDedupBy id ids := (mem_pyDedupBy_id ids ci).mpr hid
        refine ⟨hd, ?_⟩
        simp only [decide_not, Bool.not_eq_true', decide_eq_false_iff_not]
        intro hcont
        have hex := (mem_existingIds_iff db (pyDedupBy id ids) hwf hns ci hd).mp
          (by simpa using hcont)
        rcases hex with ⟨r, hr, ha, hs⟩
        exact hno r hr ⟨ha, hs⟩
    constructor
    · intro h
      rw [hchunk]
      have hfilters1 : (db.categories.filter fun r =>
          ¬ ((pyDedupBy id ids).map CategoryIdentifier.str).contains r.identifierSql) =
          db.categories.filter fun r =>
            ¬ (ids.map CategoryIdentifier.str).contains r.identifierSql :=
        List.filter_congr fun a _ => by rw [contains_dedup_map_str]
      have hfilters2 : (db.paperCategories.filter fun pc =>
          ¬ ((pyDedupBy id ids).map CategoryIdentifier.str).contains pc.2) =
          db.paperCategories.filter fun pc =>
            ¬ (ids.map CategoryIdentifier.str).contains pc.2 :=
        List.filter_congr fun a _ => by rw [contains_dedup_map_str]
      unfold _delete_categories_chunk
      split
      · rw [← hfilters1, ← hfilters2]
      · next hcond =>
        exfalso
        apply hcond
        rw [List.isEmpty_iff, List.eq_nil_iff_forall_not_mem]
        intro ci hci
        rcases (hmiss_mem ci).mp hci with ⟨hin, hno⟩
        rcases h ci hin with ⟨r, hr, ha, hs⟩
        exact hno r hr ⟨ha, hs⟩
    · intro h
      rw [hchunk]
      have hne2 : ((pyDedupBy id ids).filter fun ci =>
          ¬ ((((db.categories.filter fun r =>
              ((pyDedupBy id ids).map CategoryIdentifier.str).contains r.identifierSql).map
                CategoryRow.identifierSql).filterMap
                  fun s => (CategoryIdentifier.fromString s).toOption).contains ci)) ≠ [] := by
        rcases h with ⟨ci, hci, hno⟩
        intro hnil2
        have hmem := (hmiss_mem ci).mpr ⟨hci, hno⟩
        rw [hnil2] at hmem
        cases hmem
      refine ⟨_, ?_, hmiss_mem⟩
      unfold _delete_categories_chunk
      split
      · next hcond =>
        exfalso
        rw [List.isEmpty_iff] at hcond
        exact hne2 hcond
      · rfl

/-- Counterexample to C7: with `DATABASE_CHUNK_SIZE = 1`, deleting
`{a, b}` from a repository holding only category `a` raises
`CategoriesNotFoundError` naming `b` — but category `a` has already been
deleted by the first chunk, so the operation partially deleted and the
repository state changed. -/
theorem delete_categories_partial_delete_counterexample :
    delete_categories ⟨[⟨"a", none, none, none, none⟩], [], []⟩
        [⟨"a", none⟩, ⟨"b", none⟩] 1 =
      (some (.categoriesNotFound [("b", none)]), ⟨[], [], []⟩) ∧
      (⟨[], [], []⟩ : DB) ≠ ⟨[⟨"a", none, none, none, none⟩], [], []⟩ :=
  ⟨rfl, by decide⟩

/-- Witness for the amended C7: a concrete missing-paper delete raising
with the repository unchanged, and a concrete single-chunk category
delete removing exactly the requested row. -/
theorem delete_operations_atomicity_witness :
    (∃ missing : List String,
      delete_papers ⟨[], [⟨"p1", "t", "a", 1⟩], []⟩ ["p2"] =
        (some (.papersNotFound missing), ⟨[], [⟨"p1", "t", "a", 1⟩], []⟩) ∧
      ∀ i, i ∈ missing ↔ i ∈ ["p2"] ∧
        ∀ r ∈ [(⟨"p1", "t", "a", 1⟩ : PaperRow)], r.arxiv_id ≠ i) ∧
    delete_categories ⟨[⟨"a", none, none, none, none⟩], [], []⟩ [⟨"a", none⟩] 5000 =
      (none, ⟨[], [], []⟩) := by
  constructor
  · exact (delete_operations_atomicity.1 ⟨[], [⟨"p1", "t", "a", 1⟩], []⟩ ["p2"]).2
      ⟨"p2", List.mem_singleton.mpr rfl, by
        intro r hr
        rw [List.mem_singleton] at hr
        subst hr
        decide⟩
  · refine Eq.trans
      ((delete_operations_atomicity.2 ⟨[⟨"a", none, none, none, none⟩], [], []⟩
        [⟨"a", none⟩] 5000 (by decide) (by decide)
        (by
          intro r hr
          rw [List.mem_singleton] at hr
          subst hr
          rfl)
        (by
          intro r hr
          rw [List.mem_singleton] at hr
          subst hr
          decide)).1
        (by
          intro ci hci
          rw [List.mem_singleton] at hci
          subst hci
          exact ⟨⟨"a", none, none, none, none⟩, List.mem_singleton.mpr rfl, rfl, rfl⟩))
      rfl

/-- Counterexample to C3: upserting an existing paper with an *empty*
category set updates its fields but leaves the previous paper–category
associations in place (the association delete runs only when
`category_refs` is non-empty), so the stored category set is not
replaced by the empty set. -/
theorem upsert_empty_categories_not_replaced_counterexample :
    upsert_papers
        ⟨[⟨"cs", some "AI", none, none, none⟩], [⟨"p1", "old", "abs", 1⟩],
         [("p1", "cs.AI")]⟩
        [⟨"p1", "new", "abs", 1, []⟩] 5000 =
      (none,
        ⟨[⟨"cs", some "AI", none, none, none⟩], [⟨"p1", "new", "abs", 1⟩],
         [("p1", "cs.AI")]⟩) ∧
      ([("p1", "cs.AI")] : List (String × String)) ≠ [] :=
  ⟨rfl, by decide⟩

theorem mapM_refs_ok (aid : String) (catKeys : List String) :
    ∀ cats : List Category, (∀ c ∈ cats, catKeys.contains c.identifier.str = true) →
      (cats.mapM (fun c =>
        if catKeys.contains c.identifier.str then
          pure (aid, c.identifier.str)
        else
          Except.error (.keyError c.identifier.str)) :
          Except DomainError (List (String × String))) =
        .ok (cats.map fun c => (aid, c.identifier.str)) := by
  intro cats
  induction cats with
  | nil => intro h; rfl
  | cons c cs ih =>
    intro h
    rw [List.mapM_cons]
    rw [if_pos (h c (List.mem_cons_self c cs))]
    have hres := ih fun d hd => h d (List.mem_cons_of_mem c hd)
    show ((pure (aid, c.identifier.str) : Except DomainError (String × String)) >>= fun y =>
      (cs.mapM _ : Except DomainError (List (String × String))) >>= fun ys =>
        pure (y :: ys)) = _
    rw [show ((pure (aid, c.identifier.str) : Except DomainError (String × String)) >>= fun y =>
      (cs.mapM (fun c =>
        if catKeys.contains c.identifier.str then
          pure (aid, c.identifier.str)
        else
          Except.error (.keyError c.identifier.str)) :
          Except DomainError (List (String × String))) >>= fun ys => pure (y :: ys)) =
      ((cs.mapM (fun c =>
        if catKeys.contains c.identifier.str then
          pure (aid, c.identifier.str)
        else
          Except.error (.keyError c.identifier.str)) :
          Except DomainError (List (String × String))) >>= fun ys =>
        pure ((aid, c.identifier.str) :: ys)) from rfl]
    rw [hres]
    rfl

/-- C3 (amended): upserting a batch `{p}` whose `arxiv_id` already has a
stored row (all referenced categories present) keeps exactly the existing
rows, updating the matching row's fields in place (no second row); the
paper's association set is fully replaced by `p`'s categories when that
set is non-empty, but when `p`'s category set is empty the previous
associations are left in place (the association delete is skipped). -/
theorem upsert_paper_replaces (db : DB) (p : Paper) (chunkSize : Nat)
    (hcs : 1 ≤ chunkSize)
    (hex : ∃ r ∈ db.papers, r.arxiv_id = p.arxiv_id)
    (hcats : ∀ c ∈ p.categories, ∃ r ∈ db.categories,
      r.identifierSql = c.identifier.str) :
    upsert_papers db [p] chunkSize =
      (none,
        ⟨db.categories,
         db.papers.map fun r =>
           if r.arxiv_id = p.arxiv_id then
             ⟨r.arxiv_id, p.title, p.abstract, p.published_at⟩
           else r,
         if p.categories.isEmpty then db.paperCategories
         else
           db.paperCategories.filter (fun pc => ¬ pc.1 = p.arxiv_id) ++
             p.categories.map fun c => (p.arxiv_id, c.identifier.str)⟩) := by
  have hchunk : chunkList chunkSize [p] = [[p]] :=
    chunkList_of_le chunkSize [p] (by simp) (by simpa using hcs)
  have hdedup : pyDedupBy Paper.arxiv_id [p] = [p] := rfl
  have hrows : [p].foldl upsertPaperRow db.papers =
      db.papers.map fun r =>
        if r.arxiv_id = p.arxiv_id then
          ⟨r.arxiv_id, p.title, p.abstract, p.published_at⟩
        else r := by
    show upsertPaperRow db.papers p = _
    unfold upsertPaperRow
    rw [if_pos (by
      rcases hex with ⟨r, hr, heq⟩
      exact List.any_eq_true.mpr ⟨r, hr, by simp [heq]⟩)]
    refine List.map_congr_left fun r _ => ?_
    by_cases h : r.arxiv_id = p.arxiv_id <;> simp [h]
  have hflat : ([p].flatMap fun q => q.categories.map fun c => c.identifier.str) =
      p.categories.map fun c => c.identifier.str := by simp
  have hkeys : ∀ c ∈ p.categories,
      ((db.categories.filter fun r =>
        (p.categories.map fun c => c.identifier.str).contains r.identifierSql).map
          CategoryRow.identifierSql).contains c.identifier.str = true := by
    intro c hc
    rcases hcats c hc with ⟨r, hr, heq⟩
    have hmemref : r.identifierSql ∈ p.categories.map fun c => c.identifier.str := by
      rw [heq]
      exact List.mem_map.mpr ⟨c, hc, rfl⟩
    have : c.identifier.str ∈ (db.categories.filter fun r =>
        (p.categories.map fun c => c.identifier.str).contains r.identifierSql).map
          CategoryRow.identifierSql := by
      refine List.mem_map.mpr ⟨r, List.mem_filter.mpr ⟨hr, by simpa using hmemref⟩, heq⟩
    simpa using this
  have hrefs : buildRefs ((db.categories.filter fun r =>
      ([p].flatMap fun q => q.categories.map fun c => c.identifier.str).contains
        r.identifierSql).map CategoryRow.identifierSql) [p] =
      .ok (p.categories.map fun c => (p.arxiv_id, c.identifier.str)) := by
    rw [hflat]
    rw [buildRefs]
    rw [mapM_refs_ok p.arxiv_id _ p.categories hkeys]
    show Except.ok ((p.categories.map fun c => (p.arxiv_id, c.identifier.str)) ++ []) =
      Except.ok (p.categories.map fun c => (p.arxiv_id, c.identifier.str))
    rw [List.append_nil]
  show upsertPapersChunks ((chunkList chunkSize [p]).map (pyDedupBy Paper.arxiv_id)) db = _
  rw [hchunk]
  rw [show ([[p]].map (pyDedupBy Paper.arxiv_id)) = [[p]] by rw [List.map_cons, hdedup]; rfl]
  rw [upsertPapersChunks]
  have hchunkres : upsertPapersChunk db [p] =
      (none,
        ⟨db.categories,
         db.papers.map fun r =>
           if r.arxiv_id = p.arxiv_id then
             ⟨r.arxiv_id, p.title, p.abstract, p.published_at⟩
           else r,
         if p.categories.isEmpty then db.paperCategories
         else
           db.paperCategories.filter (fun pc => ¬ pc.1 = p.arxiv_id) ++
             p.categories.map fun c => (p.arxiv_id, c.identifier.str)⟩) := by
    unfold upsertPapersChunk
    rw [hrefs]
    have hfilt : (db.paperCategories.filter fun pc =>
        ¬ ([p].map Paper.arxiv_id).contains pc.1) =
        db.paperCategories.filter fun pc => ¬ pc.1 = p.arxiv_id :=
      List.filter_congr fun a _ => by
        by_cases h : a.1 = p.arxiv_id <;> simp [h]
    cases hcatsempty : p.categories with
    | nil =>
      rw [hrows]
      rfl
    | cons c cs =>
      rw [hrows, ← hfilt]
      rfl
  rw [hchunkres]
  rfl

/-- Witness for the amended C3: updating an existing paper's title and
replacing its association `cs.CV` by `cs.AI` in one upsert. -/
theorem upsert_paper_replaces_witness :
    upsert_papers
        ⟨[⟨"cs", some "AI", none, none, none⟩, ⟨"cs", some "CV", none, none, none⟩],
         [⟨"p1", "old", "abs", 1⟩], [("p1", "cs.CV")]⟩
        [⟨"p1", "new", "abs", 1, [Category.mk ⟨"cs", some "AI"⟩ none none none []]⟩]
        5000 =
      (none,
        ⟨[⟨"cs", some "AI", none, none, none⟩, ⟨"cs", some "CV", none, none, none⟩],
         [⟨"p1", "new", "abs", 1⟩], [("p1", "cs.AI")]⟩) :=
  Eq.trans
    (upsert_paper_replaces
      ⟨[⟨"cs", some "AI", none, none, none⟩, ⟨"cs", some "CV", none, none, none⟩],
       [⟨"p1", "old", "abs", 1⟩], [("p1", "cs.CV")]⟩
      ⟨"p1", "new", "abs", 1, [Category.mk ⟨"cs", some "AI"⟩ none none none []]⟩
      5000 (by decide)
      ⟨⟨"p1", "old", "abs", 1⟩, List.mem_singleton.mpr rfl, rfl⟩
      (by
        intro c hc
        rw [List.mem_singleton] at hc
        subst hc
        exact ⟨⟨"cs", some "AI", none, none, none⟩, List.mem_cons_self _ _, rfl⟩))
    rfl

/-- The unit-of-work session: the durable (committed) state and the
session's current working state. Repository operations act on `current`;
only `commit` publishes. -/
structure UowSession where
  committed : DB
  current : DB
deriving DecidableEq, Repr

/-- `SqlAlchemyUnitOfWork.__enter__`: open a session over the durable
state. -/
def UowSession.start (db : DB) : UowSession := ⟨db, db⟩

/-- `commit`: publish the session's working state. -/
def UowSession.commit (s : UowSession) : UowSession := ⟨s.current, s.current⟩

/-- `rollback`: discard the session's uncommitted work. -/
def UowSession.rollback (s : UowSession) : UowSession := ⟨s.committed, s.committed⟩

/-- `LEGACY_TO_CANONICAL_CATEGORIES.get(category_str, category_str)`. -/
def legacyGet (s : String) : String :=
  (LEGACY_TO_CANONICAL_CATEGORIES.lookup s).getD s

/-- The enrichment dict `{str(category.identifier): category for category
in list_categories()}`: for duplicate keys the last binding wins. -/
def enrichedLookup (cats : List Category) (key : String) : Option Category :=
  (cats.filter fun c => c.identifier.str == key).getLast?

/-- The enrichment step of `fetch_and_store_latest_papers`: re-list the
persisted categories, canonicalize each DTO category string through the
legacy table, and look it up; a miss is a raw `KeyError`. The resulting
`Paper` set and each paper's category set deduplicate by their Python
hash keys. -/
def enrichPapers (db : DB) (dtos : List PaperDTO) : Except DomainError (List Paper) := do
  let papers ← dtos.mapM fun dto => do
    let cs ← dto.categories.mapM fun categoryStr =>
      match enrichedLookup (list_categories db) (legacyGet categoryStr) with
      | some c => pure c
      | none => Except.error (.keyError (legacyGet categoryStr))
    pure (Paper.mk dto.arxiv_id dto.title dto.abstract dto.published_at
      (pyUnionCategories [] cs))
  pure (pyDedupBy Paper.arxiv_id papers)

/-- The body of `fetch_and_store_latest_papers`'s `with uow:` block:
resolve, union in the legacy equivalents, fetch, enrich, upsert, commit.
Each failure point surfaces the exception with the session as the raise
left it (reads mutate nothing; a mid-upsert raise keeps the chunk's
flushed rows in `current`). -/
def fetchAndStoreLatestBody (fetch : List Category → Except DomainError (List PaperDTO))
    (categoryStrings : Option (List String)) (chunkSize : Nat) (s : UowSession) :
    Except DomainError (List Paper) × UowSession :=
  match _resolve_categories s.current categoryStrings with
  | .error e => (.error e, s)
  | .ok resolved =>
    match fetch (pyUnionCategories resolved (_get_legacy_categories resolved)) with
    | .error e => (.error e, s)
    | .ok dtos =>
      match enrichPapers s.current dtos with
      | .error e => (.error e, s)
      | .ok papers =>
        match upsert_papers s.current papers chunkSize with
        | (some e, cur) => (.error e, { s with current := cur })
        | (none, cur) => (.ok papers, UowSession.commit { s with current := cur })

/-- `fetch_and_store_latest_papers` under the transactional scope:
`__enter__` opens the session, the body runs, and `__exit__`
unconditionally rolls back (a no-op after a commit); the observable
repository state is the committed one. -/
def fetch_and_store_latest_papers
    (fetch : List Category → Except DomainError (List PaperDTO))
    (categoryStrings : Option (List String)) (chunkSize : Nat) (db : DB) :
    Except DomainError (List Paper) × DB :=
  ((fetchAndStoreLatestBody fetch categoryStrings chunkSize (UowSession.start db)).1,
   ((fetchAndStoreLatestBody fetch categoryStrings chunkSize
      (UowSession.start db)).2.rollback).committed)

theorem body_committed_or_ok
    (fetch : List Category → Except DomainError (List PaperDTO))
    (categoryStrings : Option (List String)) (chunkSize : Nat) (s : UowSession) :
    (fetchAndStoreLatestBody fetch categoryStrings chunkSize s).2.committed = s.committed ∨
      ∃ papers, (fetchAndStoreLatestBody fetch categoryStrings chunkSize s).1 = .ok papers := by
  unfold fetchAndStoreLatestBody
  split
  · exact Or.inl rfl
  · split
    · exact Or.inl rfl
    · split
      · exact Or.inl rfl
      · split
        · exact Or.inl rfl
        · exact Or.inr ⟨_, rfl⟩

/-- C5: if any step of the ingestion pipeline raises before the commit,
exiting the transactional scope rolls back every repository change made
inside it: the observable repository state afterwards equals the state
before ingestion began. -/
theorem pipeline_rollback_on_error
    (fetch : List Category → Except DomainError (List PaperDTO))
    (categoryStrings : Option (List String)) (chunkSize : Nat) (db : DB)
    (e : DomainError)
    (herr : (fetch_and_store_latest_papers fetch categoryStrings chunkSize db).1 = .error e) :
    (fetch_and_store_latest_papers fetch categoryStrings chunkSize db).2 = db := by
  rcases body_committed_or_ok fetch categoryStrings chunkSize (UowSession.start db) with
    h | ⟨papers, hok⟩
  · show ((fetchAndStoreLatestBody fetch categoryStrings chunkSize
        (UowSession.start db)).2.rollback).committed = db
    show (fetchAndStoreLatestBody fetch categoryStrings chunkSize
        (UowSession.start db)).2.committed = db
    rw [h]
    rfl
  · exfalso
    have : (fetch_and_store_latest_papers fetch categoryStrings chunkSize db).1 =
        .ok papers := hok
    rw [this] at herr
    cases herr

/-- Witness for C5: against an empty repository, a `None` request raises
`NoCategoriesError` inside the scope and the observable state is the
original (empty) repository. -/
theorem pipeline_rollback_on_error_witness :
    (fetch_and_store_latest_papers (fun _ => .ok []) none 5000 ⟨[], [], []⟩).2 =
      ⟨[], [], []⟩ :=
  pipeline_rollback_on_error (fun _ => .ok []) none 5000 ⟨[], [], []⟩
    .noCategories rfl
